import Mathlib

/-!
Verification development for the MemeTrader repository.

This file shallowly embeds the paper-wallet accounting
(`src/utils/wallet.py`, `src/utils/test_wallet.py`), the trade
validation/execution loop and agent workflow of
`src/agents/trading_agents.py`, and the JSON fraction repair helpers,
as executable Lean definitions, and proves properties of them.

Modelling conventions:
- Python floats are modelled as exact rationals (`ℚ`); the properties
  proved are arithmetic bookkeeping facts, not rounding facts.
- Python dicts keyed by strings are modelled as association lists with
  dict update (replace in place, append when new) and delete.
- `datetime.now()` timestamps are passed in as an explicit `ℕ` argument.
- A Python exception escaping a function is modelled with `Except`/`Option`;
  state mutated before the raise is kept, mirroring the mutable objects.
-/

namespace MemeTrader

/-- Dict lookup on an association list (Python `d[k]` / `k in d`). -/
def alistLookup {α : Type} (k : String) : List (String × α) → Option α
  | [] => none
  | (k₂, v) :: rest => if k₂ = k then some v else alistLookup k rest

/-- Dict assignment `d[k] = v`: replaces the value in place when the key
exists, appends otherwise (Python dicts keep insertion order). -/
def alistInsert {α : Type} (k : String) (v : α) : List (String × α) → List (String × α)
  | [] => [(k, v)]
  | (k₂, v₂) :: rest =>
      if k₂ = k then (k, v) :: rest else (k₂, v₂) :: alistInsert k v rest

/-- Dict deletion `del d[k]`. -/
def alistErase {α : Type} (k : String) : List (String × α) → List (String × α)
  | [] => []
  | (k₂, v₂) :: rest =>
      if k₂ = k then rest else (k₂, v₂) :: alistErase k rest

/-! ## Configuration constants (`src/config/config.py`) -/

/-- `INITIAL_BALANCE = 20.0` (USD). -/
def INITIAL_BALANCE : ℚ := 20

/-- `TARGET_BALANCE = 100.0` (USD). -/
def TARGET_BALANCE : ℚ := 100

/-- `MIN_PURCHASE_AMOUNT = 5.0` (USD). -/
def MIN_PURCHASE_AMOUNT : ℚ := 5

/-! ## `SimulatedWallet` (`src/utils/wallet.py`) -/

/-- A position dict `{'amount': float, 'entry_price': float}`, the shape
used by both `SimulatedWallet.positions` and `TestWallet.positions`. -/
structure WPosition where
  amount : ℚ
  entry_price : ℚ
deriving DecidableEq, Repr

/-- One entry of `SimulatedWallet.trade_history`: the `OPEN` records carry
`cost`, the `CLOSE` records carry `value` and `profit`. -/
structure SimTradeRec where
  timestamp : ℕ
  type : String
  symbol : String
  amount : ℚ
  price : ℚ
  cost : Option ℚ
  value : Option ℚ
  profit : Option ℚ
deriving DecidableEq, Repr

/-- The `SimulatedWallet` object state. -/
structure SimWallet where
  balance : ℚ
  positions : List (String × WPosition)
  trade_history : List SimTradeRec
  target_balance : ℚ
deriving DecidableEq, Repr

/-- `SimulatedWallet.__init__`. -/
def initSimWallet : SimWallet :=
  { balance := INITIAL_BALANCE, positions := [], trade_history := [],
    target_balance := TARGET_BALANCE }

/-- `SimulatedWallet.can_open_position`: `cost <= self.balance`. -/
def canOpenPosition (w : SimWallet) (_symbol : String) (amount price : ℚ) : Prop :=
  amount * price ≤ w.balance

instance (w : SimWallet) (s : String) (a p : ℚ) : Decidable (canOpenPosition w s a p) := by
  unfold canOpenPosition; infer_instance

/-- `SimulatedWallet.open_position`: returns the Python return value and
the wallet as mutated. -/
def simOpenPosition (w : SimWallet) (ts : ℕ) (symbol : String) (amount price : ℚ) :
    Bool × SimWallet :=
  if canOpenPosition w symbol amount price then
    let cost := amount * price
    (true,
      { w with
        balance := w.balance - cost
        positions := alistInsert symbol ⟨amount, price⟩ w.positions
        trade_history := w.trade_history ++
          [⟨ts, "OPEN", symbol, amount, price, some cost, none, none⟩] })
  else (false, w)

/-- `SimulatedWallet.close_position`. -/
def simClosePosition (w : SimWallet) (ts : ℕ) (symbol : String) (price : ℚ) :
    Bool × SimWallet :=
  match alistLookup symbol w.positions with
  | none => (false, w)
  | some position =>
      let amount := position.amount
      let value := amount * price
      let profit := value - amount * position.entry_price
      (true,
        { w with
          balance := w.balance + value
          positions := alistErase symbol w.positions
          trade_history := w.trade_history ++
            [⟨ts, "CLOSE", symbol, amount, price, none, some value, some profit⟩] })

/-- `SimulatedWallet.get_total_value`: cash plus the value of every
position whose symbol has a current price. -/
def simGetTotalValue (w : SimWallet) (current_prices : List (String × ℚ)) : ℚ :=
  w.positions.foldl
    (fun total sp =>
      match alistLookup sp.1 current_prices with
      | some p => total + sp.2.amount * p
      | none => total)
    w.balance

/-- `SimulatedWallet.get_progress_to_target`: the raw percentage clamped
to `[0, 100]` by `min(max(progress, 0), 100)`. -/
def simGetProgressToTarget (w : SimWallet) (current_prices : List (String × ℚ)) : ℚ :=
  let current_value := simGetTotalValue w current_prices
  let progress := (current_value - INITIAL_BALANCE) / (TARGET_BALANCE - INITIAL_BALANCE) * 100
  min (max progress 0) 100

/-! ## `TestWallet` (`src/utils/test_wallet.py`) -/

/-- The `Trade` dataclass. -/
structure Trade where
  timestamp : ℕ
  symbol : String
  type : String
  amount : ℚ
  price : ℚ
  total : ℚ
  profit_loss : Option ℚ := none
deriving DecidableEq, Repr

/-- The `TestWallet` object state. -/
structure TestWallet where
  initial_balance : ℚ
  target_balance : ℚ
  balance : ℚ
  positions : List (String × WPosition)
  trade_history : List Trade
deriving DecidableEq, Repr

/-- `TestWallet.__init__`. -/
def TestWallet.init (initial_balance target_balance : ℚ) : TestWallet :=
  { initial_balance := initial_balance, target_balance := target_balance,
    balance := initial_balance, positions := [], trade_history := [] }

/-- `TestWallet.buy`. The averaging branch recomputes `total_cost` as
`old_amount * old_entry + amount * price` before dividing by the merged
amount; a merged amount of zero is a Python `ZeroDivisionError`, modelled
as `.error ()` with the balance already debited (the debit precedes the
position update in the source). -/
def TestWallet.buy (w : TestWallet) (ts : ℕ) (symbol : String) (amount price : ℚ) :
    Except Unit Bool × TestWallet :=
  let total_cost := amount * price
  if total_cost < MIN_PURCHASE_AMOUNT then (.ok false, w)
  else if total_cost > w.balance then (.ok false, w)
  else
    let w₁ := { w with balance := w.balance - total_cost }
    match alistLookup symbol w.positions with
    | some current_position =>
        let total_amount := current_position.amount + amount
        let total_cost₂ := current_position.amount * current_position.entry_price + total_cost
        if total_amount = 0 then (.error (), w₁)
        else
          (.ok true,
            { w₁ with
              positions := alistInsert symbol ⟨total_amount, total_cost₂ / total_amount⟩ w₁.positions
              trade_history := w₁.trade_history ++
                [⟨ts, symbol, "buy", amount, price, total_cost₂, none⟩] })
    | none =>
        (.ok true,
          { w₁ with
            positions := alistInsert symbol ⟨amount, price⟩ w₁.positions
            trade_history := w₁.trade_history ++
              [⟨ts, symbol, "buy", amount, price, total_cost, none⟩] })

/-- `TestWallet.sell`. -/
def TestWallet.sell (w : TestWallet) (ts : ℕ) (symbol : String) (amount price : ℚ) :
    Bool × TestWallet :=
  match alistLookup symbol w.positions with
  | none => (false, w)
  | some position =>
      if amount > position.amount then (false, w)
      else
        let total_value := amount * price
        let profit_loss := total_value - amount * position.entry_price
        let newAmount := position.amount - amount
        let positions₂ :=
          if newAmount = 0 then alistErase symbol w.positions
          else alistInsert symbol ⟨newAmount, position.entry_price⟩ w.positions
        (true,
          { w with
            balance := w.balance + total_value
            positions := positions₂
            trade_history := w.trade_history ++
              [⟨ts, symbol, "sell", amount, price, total_value, some profit_loss⟩] })

/-- `TestWallet.get_total_value`. -/
def TestWallet.getTotalValue (w : TestWallet) (current_prices : List (String × ℚ)) : ℚ :=
  w.positions.foldl
    (fun total sp =>
      match alistLookup sp.1 current_prices with
      | some p => total + sp.2.amount * p
      | none => total)
    w.balance

/-! ## Trade-operation sequences (claim C1) -/

/-- One `SimulatedWallet` trade operation with its arguments. -/
inductive SimOp
  | openPos (ts : ℕ) (symbol : String) (amount price : ℚ)
  | closePos (ts : ℕ) (symbol : String) (price : ℚ)
deriving DecidableEq, Repr

/-- Apply a `SimulatedWallet` operation, keeping the wallet whatever the
boolean result was. -/
def applySimOp (w : SimWallet) : SimOp → SimWallet
  | .openPos ts s a p => (simOpenPosition w ts s a p).2
  | .closePos ts s p => (simClosePosition w ts s p).2

/-- The operation's `amount` and `price` arguments are nonnegative. -/
def SimOp.nonneg : SimOp → Prop
  | .openPos _ _ a p => 0 ≤ a ∧ 0 ≤ p
  | .closePos _ _ p => 0 ≤ p

/-- One `TestWallet` trade operation with its arguments. -/
inductive TwOp
  | buy (ts : ℕ) (symbol : String) (amount price : ℚ)
  | sell (ts : ℕ) (symbol : String) (amount price : ℚ)
deriving DecidableEq, Repr

/-- Apply a `TestWallet` operation, keeping the wallet as mutated even
when the call raised. -/
def applyTwOp (w : TestWallet) : TwOp → TestWallet
  | .buy ts s a p => (w.buy ts s a p).2
  | .sell ts s a p => (w.sell ts s a p).2

/-- The operation's `amount` and `price` arguments are nonnegative. -/
def TwOp.nonneg : TwOp → Prop
  | .buy _ _ a p => 0 ≤ a ∧ 0 ≤ p
  | .sell _ _ a p => 0 ≤ a ∧ 0 ≤ p

/-- The invariant of claim C1 on a `SimulatedWallet`: nonnegative cash and
nonnegative recorded position amounts. -/
def simInv (w : SimWallet) : Prop :=
  0 ≤ w.balance ∧ ∀ sp ∈ w.positions, 0 ≤ sp.2.amount

/-- The invariant of claim C1 on a `TestWallet`. -/
def twInv (w : TestWallet) : Prop :=
  0 ≤ w.balance ∧ ∀ sp ∈ w.positions, 0 ≤ sp.2.amount

instance (w : SimWallet) : Decidable (simInv w) := by unfold simInv; infer_instance

instance (w : TestWallet) : Decidable (twInv w) := by unfold twInv; infer_instance

/-! ## `TradingAgents._rate_limited_invoke` (`src/agents/trading_agents.py` 427-465)

The LLM call is abstracted as `attempt : ℕ → Except String String`, giving the
outcome of the k-th attempt (`.error` models an exception raised by
`chain.invoke`). The chain object is abstracted as the string `str(chain)`,
which the source probes with substring tests to pick a fallback message. The
observable temporal behaviour is returned as a list of events: one `.call` per
`chain.invoke` attempt and one `.sleep` per `time.sleep`. -/

/-- An outbound-call or sleep event, in order of occurrence. -/
inductive ApiEvent
  | call
  | sleep (seconds : ℕ)
deriving DecidableEq, Repr

/-- The fallback response chosen at line 458-465 by substring tests on
`str(chain)`. -/
def fallbackResponse (chain : String) : String :=
  if "financial_advice".data <:+: chain.data then
    "Unable to get financial advice at this time. Please proceed with caution."
  else if "risk_analysis".data <:+: chain.data then
    "Unable to perform risk analysis at this time. Please proceed with caution."
  else if "trading_plan".data <:+: chain.data then
    "Unable to create trading plan at this time. Please try again later."
  else "Service temporarily unavailable. Please try again later."

/-- The `while retry_count < max_retries` loop of `_rate_limited_invoke`,
with `remaining = max_retries - retry_count`. When the loop exits without
returning (only possible when `max_retries = 0`) Python returns `None`,
modelled as `none`. -/
def rliAux (attempt : ℕ → Except String String) (chain : String) :
    ℕ → ℕ → Option String × List ApiEvent
  | _, 0 => (none, [])
  | retry_count, remaining + 1 =>
      let sleeps : List ApiEvent :=
        if 0 < retry_count then [.sleep (2 ^ retry_count)] else []
      match attempt retry_count with
      | .ok result => (some result, sleeps ++ [.call])
      | .error _ =>
          if remaining = 0 then (some (fallbackResponse chain), sleeps ++ [.call])
          else
            let rest := rliAux attempt chain (retry_count + 1) remaining
            (rest.1, sleeps ++ [.call] ++ rest.2)

/-- `TradingAgents._rate_limited_invoke`: the returned value and the event
trace. -/
def rateLimitedInvoke (attempt : ℕ → Except String String) (max_retries : ℕ)
    (chain : String) : Option String × List ApiEvent :=
  rliAux attempt chain 0 max_retries

/-- The events of attempt number `k` (0-based): attempt 0 is not preceded by a
sleep, retry attempt `k ≥ 1` is preceded by a sleep of `2^k` seconds. -/
def attemptEvents (k : ℕ) : List ApiEvent :=
  if k = 0 then [.call] else [.sleep (2 ^ k), .call]

/-- The canonical trace of `n` consecutive attempts starting at attempt
number `lo`. -/
def attemptTrace : ℕ → ℕ → List ApiEvent
  | _, 0 => []
  | lo, n + 1 => attemptEvents lo ++ attemptTrace (lo + 1) n

/-- Number of outbound API calls in a trace. -/
def callCount (evs : List ApiEvent) : ℕ :=
  evs.countP (fun e => decide (e = ApiEvent.call))

/-! ## The `execute_trades` validation loop (`src/agents/trading_agents.py` 544-802)

Parsed JSON trade objects are modelled by `JTrade`: an element of the parsed
list is either not a dict, or a dict from string keys to JSON values. JSON
values are strings, numbers, booleans (Python bools are numeric: `True > 0`
holds and `True` trades as the amount 1), or anything else (`other` stands
for null, arrays, objects — values on which comparisons raise). -/

/-- A JSON value as far as the validation loop inspects it. -/
inductive JVal
  | str (s : String)
  | num (q : ℚ)
  | bool (b : Bool)
  | other
deriving DecidableEq, Repr

/-- One element of the parsed trade list. -/
inductive JTrade
  | notDict
  | dict (fields : List (String × JVal))
deriving DecidableEq, Repr

/-- A position dict of `state['positions']` after `_ensure_position_fields`:
all four fields present. -/
structure Position where
  amount : ℚ
  average_price : ℚ
  total_value : ℚ
  entry_price : ℚ
deriving DecidableEq, Repr

/-- The part of the workflow state the trade loop reads and writes. -/
structure ExecState where
  available_balance : ℚ
  positions : List (String × Position)
deriving DecidableEq, Repr

/-- `valid_pairs` (lines 626-638; `SUSHIUSDT` is listed twice in the source). -/
def validPairs : List String :=
  ["BTCUSDT", "ETHUSDT", "BNBUSDT", "SOLUSDT", "ADAUSDT", "XRPUSDT", "DOGEUSDT",
   "PEPEUSDT", "FLOKIUSDT", "BONKUSDT", "BOMEUSDT", "WIFUSDT",
   "UNIUSDT", "CAKEUSDT", "SUSHIUSDT", "COMPUSDT", "AAVEUSDT", "MKRUSDT", "YFIUSDT",
   "CRVUSDT", "SNXUSDT", "PERPUSDT", "GMXUSDT", "BALUSDT", "SUSHIUSDT", "1INCHUSDT",
   "ZRXUSDT", "AVAXUSDT", "MATICUSDT", "DOTUSDT", "LINKUSDT",
   "SHIBUSDT", "LTCUSDT", "ATOMUSDT", "NEARUSDT", "ALGOUSDT"]

/-- Digit run to its decimal value. -/
def digitsToNat (cs : List Char) : ℕ :=
  cs.foldl (fun acc c => 10 * acc + (c.toNat - Char.toNat '0')) 0

/-- ASCII whitespace stripped by Python `float()` around the number. -/
def isSpaceChar (c : Char) : Bool :=
  c == ' ' || c == '\t' || c == '\n' || c == '\r' || c == '\x0b' || c == '\x0c'

/-- Model of Python `float(s)` for strings denoting finite values: optional
whitespace padding, optional sign, digits with underscore separators, an
optional fractional part and an optional exponent (`"1"`, `" 1.5 "`,
`".5"`, `"2."`, `"1.e3"`, `"1e-2"`, `"1_000"`), with the exact rational
value. Leniencies, each noted against the source semantics: underscores are
accepted anywhere among the digits where Python only allows them between
digits, digits and whitespace are ASCII, exponents are exact (the float
overflow/underflow thresholds are not modelled) — all of which only ever
accept or enlarge values Python rejects or rounds, never reject a finite
value Python accepts. Strings Python parses to non-finite floats
(`inf`/`infinity`/`nan` forms) are mapped to `none`: with positive market
prices those trades are always discarded downstream exactly like a
`ValueError` (`nan`/`-inf` fail `amount > 0`; `+inf` exceeds any balance on
a buy and any held amount on a sell), which is the domain the C2 theorem
states with its positive-price hypothesis. -/
def parseFloatQ (s : String) : Option ℚ :=
  let cs := ((s.data.dropWhile isSpaceChar).reverse.dropWhile isSpaceChar).reverse
  let signAndRest : ℚ × List Char :=
    match cs with
    | '-' :: r => (-1, r)
    | '+' :: r => (1, r)
    | r => (1, r)
  let sign := signAndRest.1
  let body := signAndRest.2.filter (fun c => c ≠ '_')
  let intPart := body.takeWhile Char.isDigit
  let rest := body.dropWhile Char.isDigit
  let fracAndRest : List Char × List Char :=
    match rest with
    | '.' :: r => (r.takeWhile Char.isDigit, r.dropWhile Char.isDigit)
    | r => ([], r)
  let fracPart := fracAndRest.1
  if intPart = [] ∧ fracPart = [] then none
  else
    let mant : ℚ := (digitsToNat intPart : ℚ) + (digitsToNat fracPart : ℚ) / 10 ^ fracPart.length
    match fracAndRest.2 with
    | [] => some (sign * mant)
    | e :: expRest =>
        if e == 'e' || e == 'E' then
          let expSignAndDigits : Bool × List Char :=
            match expRest with
            | '-' :: r => (true, r)
            | '+' :: r => (false, r)
            | r => (false, r)
          let expDigits := expSignAndDigits.2
          if expDigits ≠ [] ∧ expDigits.all Char.isDigit then
            some (sign * mant *
              (if expSignAndDigits.1 then ((10 : ℚ) ^ digitsToNat expDigits)⁻¹
               else (10 : ℚ) ^ digitsToNat expDigits))
          else none
        else none

/-- The amount field as the loop converts it (lines 661-662):
`float(trade['amount'])` when it is a string, the value itself when it is a
number or a bool (`True` is 1, `False` is 0); null/arrays/objects raise on
`amount > 0` and are caught. -/
def amountToQ : JVal → Option ℚ
  | .num q => some q
  | .bool b => some (if b then 1 else 0)
  | .str s => parseFloatQ s
  | .other => none

/-- The type check of line 653: `trade['type'].lower() in ['buy', 'sell']`,
giving `some true` for buy and `some false` for sell. A non-string type
raises `AttributeError` on `.lower()` (caught at line 747); the
`'information'` type is skipped at line 649; both are `none`. -/
def typeOk : JVal → Option Bool
  | .str s =>
      if s.toLower = "buy" then some true
      else if s.toLower = "sell" then some false
      else none
  | _ => none

/-- The symbol checks of lines 655-659: the symbol must be a string other
than `'USDT'` (which is not in `valid_pairs` anyway), a member of
`valid_pairs`, and present in `current_prices`; returns the symbol with its
price. -/
def symbolOk (prices : List (String × ℚ)) : JVal → Option (String × ℚ)
  | .str s =>
      if s ∈ validPairs then (alistLookup s prices).map (fun p => (s, p))
      else none
  | _ => none

/-- The amount checks of lines 661-663: numeric and strictly positive. -/
def amountPos (v : JVal) : Option ℚ :=
  match amountToQ v with
  | some a => if 0 < a then some a else none
  | none => none

/-- The buy/sell arm of the loop (lines 672-731), reached once type, symbol,
price and amount validated; `a` is already converted to a number and
`amountVal` is the value line 665 writes back into the dict (`float(...)` of
a string, the original value otherwise). The `ZeroDivisionError` of
`total_value / total_amount` (line 695, when an existing position's amount
is `-a`) is caught at line 738 with the balance already debited at line 679;
its branch keeps the debited balance and executes nothing. -/
def execValidated (st : ExecState) (f : List (String × JVal)) (isBuy : Bool)
    (sym : String) (price a : ℚ) (amountVal : JVal) : ExecState × Option JTrade :=
  let trade_value := a * price
  let executed := JTrade.dict (alistInsert "amount" amountVal f)
  if isBuy then
    if trade_value > st.available_balance then (st, none)
    else
      let st₁ : ExecState := ⟨st.available_balance - trade_value, st.positions⟩
      match alistLookup sym st.positions with
      | none =>
          ({ st₁ with
              positions := alistInsert sym ⟨a, price, trade_value, price⟩ st₁.positions },
            some executed)
      | some current_position =>
          let total_amount := current_position.amount + a
          let total_value := current_position.total_value + trade_value
          if total_amount = 0 then (st₁, none)
          else
            ({ st₁ with
                positions := alistInsert sym
                  ⟨total_amount, total_value / total_amount, total_value,
                    current_position.entry_price⟩ st₁.positions },
              some executed)
  else
    match alistLookup sym st.positions with
    | none => (st, none)
    | some current_position =>
        if current_position.amount < a then (st, none)
        else
          let remaining_amount := current_position.amount - a
          let positions₂ :=
            if remaining_amount ≤ 0 then alistErase sym st.positions
            else alistInsert sym
              ⟨remaining_amount, price, remaining_amount * price,
                current_position.entry_price⟩ st.positions
          (⟨st.available_balance + trade_value, positions₂⟩, some executed)

/-- One iteration of the per-trade loop (lines 642-749). Every validation
failure in the source ends in `continue` with the state untouched and the
trade not appended to `valid_trades`, so the guard chain is flattened into
one pattern match; the state-changing paths are exactly those of
`execValidated`. -/
def processTrade (prices : List (String × ℚ)) (st : ExecState) :
    JTrade → ExecState × Option JTrade
  | .notDict => (st, none)
  | .dict f =>
      match alistLookup "type" f, alistLookup "symbol" f, alistLookup "amount" f,
            alistLookup "reason" f with
      | some tv, some sv, some av, some _ =>
          match typeOk tv, symbolOk prices sv, amountPos av with
          | some isBuy, some sp, some a =>
              execValidated st f isBuy sp.1 sp.2 a
                (match av with | JVal.str _ => JVal.num a | v => v)
          | _, _, _ => (st, none)
      | _, _, _, _ => (st, none)

/-- The whole loop over the parsed trade list, accumulating `valid_trades`. -/
def processTrades (prices : List (String × ℚ)) :
    ExecState → List JTrade → ExecState × List JTrade
  | st, [] => (st, [])
  | st, t :: ts =>
      let r := processTrade prices st t
      let rest := processTrades prices r.1 ts
      (rest.1, (match r.2 with | some e => [e] | none => []) ++ rest.2)

/-- The portfolio-value recomputation loop (lines 751-766): sums
`amount * current_price` over the positions whose symbol has a price, and
refreshes each such position's `total_value`, `average_price` and zero
`entry_price` in place. -/
def updatePositions (prices : List (String × ℚ)) :
    List (String × Position) → ℚ × List (String × Position)
  | [] => (0, [])
  | (sym, pos) :: rest =>
      let r := updatePositions prices rest
      match alistLookup sym prices with
      | none => (r.1, (sym, pos) :: r.2)
      | some p =>
          let position_value := pos.amount * p
          (position_value + r.1,
            (sym, { pos with
                total_value := position_value
                average_price := p
                entry_price := if pos.entry_price = 0 then p else pos.entry_price }) :: r.2)

/-- The sum the spec describes: for each recorded position whose symbol is in
`current_prices`, its amount times that symbol's current price. -/
def positionsValue (prices : List (String × ℚ)) : List (String × Position) → ℚ
  | [] => 0
  | (sym, pos) :: rest =>
      (match alistLookup sym prices with
       | some p => pos.amount * p
       | none => 0) + positionsValue prices rest

/-- The normal path of `execute_trades` after the trade list is parsed: the
validation loop followed by the portfolio-value recomputation. Returns the
final balance/positions, the recomputed `portfolio_value`, and
`executed_trades`. -/
def executeTradesCore (prices : List (String × ℚ)) (st : ExecState)
    (trades : List JTrade) : ExecState × ℚ × List JTrade :=
  let r := processTrades prices st trades
  let u := updatePositions prices r.1.positions
  (⟨r.1.available_balance, u.2⟩, r.1.available_balance + u.1, r.2)

/-- Input of the market-analyst chain (lines 469-478). -/
structure MarketAnalystInput where
  current_prices : List (String × ℚ)
  portfolio_value : ℚ
  progress_to_target : ℚ
  positions : List (String × Position)
  available_balance : ℚ

/-- Input of the risk-manager chain (lines 483-490). -/
structure RiskManagerInput where
  market_analysis : String
  positions : List (String × Position)
  available_balance : ℚ

/-- Input of the financial-advisor chain (lines 495-504). -/
structure FinancialAdvisorInput where
  portfolio_value : ℚ
  available_balance : ℚ
  positions : List (String × Position)
  market_analysis : String
  risk_assessment : String

/-- Input of the risk-analyzer chain (lines 509-519). -/
structure RiskAnalyzerInput where
  portfolio_value : ℚ
  available_balance : ℚ
  positions : List (String × Position)
  market_analysis : String
  risk_assessment : String
  financial_advice : String

/-- Input of the trader chain (lines 524-534). -/
structure TraderInput where
  market_analysis : String
  risk_assessment : String
  financial_advice : String
  risk_analysis : String
  positions : List (String × Position)
  available_balance : ℚ

/-- Input of the executor chain (lines 576-584). -/
structure ExecutorInput where
  trading_plan : String
  current_prices : List (String × ℚ)
  positions : List (String × Position)
  available_balance : ℚ

/-- The LLM responses, one function per chain. -/
structure Oracle where
  marketAnalyst : MarketAnalystInput → String
  riskManager : RiskManagerInput → String
  financialAdvisor : FinancialAdvisorInput → String
  riskAnalyzer : RiskAnalyzerInput → String
  trader : TraderInput → String
  executor : ExecutorInput → Option (List JTrade)

/-- The `MarketState` TypedDict. -/
structure MarketState where
  current_prices : List (String × ℚ)
  portfolio_value : ℚ
  progress_to_target : ℚ
  positions : List (String × Position)
  available_balance : ℚ
  market_analysis : String
  risk_assessment : String
  trading_plan : String
  executed_trades : List JTrade
  strategy : String
  financial_advice : String
  risk_analysis : String
deriving DecidableEq, Repr

/-- `TradingAgents.analyze_market`. -/
def analyzeMarket (o : Oracle) (s : MarketState) : MarketState :=
  { s with market_analysis := o.marketAnalyst ⟨s.current_prices, s.portfolio_value,
      s.progress_to_target, s.positions, s.available_balance⟩ }

/-- `TradingAgents.assess_risk`. -/
def assessRisk (o : Oracle) (s : MarketState) : MarketState :=
  { s with risk_assessment := o.riskManager ⟨s.market_analysis, s.positions,
      s.available_balance⟩ }

/-- `TradingAgents.get_financial_advice`. -/
def getFinancialAdvice (o : Oracle) (s : MarketState) : MarketState :=
  { s with financial_advice := o.financialAdvisor ⟨s.portfolio_value,
      s.available_balance, s.positions, s.market_analysis, s.risk_assessment⟩ }

/-- `TradingAgents.analyze_risk`. -/
def analyzeRisk (o : Oracle) (s : MarketState) : MarketState :=
  { s with risk_analysis := o.riskAnalyzer ⟨s.portfolio_value, s.available_balance,
      s.positions, s.market_analysis, s.risk_assessment, s.financial_advice⟩ }

/-- `TradingAgents.create_trading_plan`. -/
def createTradingPlan (o : Oracle) (s : MarketState) : MarketState :=
  { s with trading_plan := o.trader ⟨s.market_analysis, s.risk_assessment,
      s.financial_advice, s.risk_analysis, s.positions, s.available_balance⟩ }

/-- The required-field check of lines 556-571 (`not state[field]` on a string
is emptiness). -/
def fieldsPresent (s : MarketState) : Bool :=
  decide (s.market_analysis ≠ "" ∧ s.risk_assessment ≠ "" ∧ s.financial_advice ≠ ""
    ∧ s.risk_analysis ≠ "" ∧ s.trading_plan ≠ "")

/-- `TradingAgents.execute_trades`: early return when required fields are
missing; state unchanged when the executor response does not parse; otherwise
the validation loop and portfolio-value recomputation. -/
def executeTrades (o : Oracle) (s : MarketState) : MarketState :=
  if fieldsPresent s then
    match o.executor ⟨s.trading_plan, s.current_prices, s.positions, s.available_balance⟩ with
    | none => s
    | some trades =>
        let r := executeTradesCore s.current_prices ⟨s.available_balance, s.positions⟩ trades
        { s with
            available_balance := r.1.available_balance
            positions := r.1.positions
            portfolio_value := r.2.1
            executed_trades := r.2.2 }
  else s

/-- `TradingAgents.run_trading_workflow` (lines 827-861): the six steps in
source order, `save_state` being file output with no effect on the state. -/
def runTradingWorkflow (o : Oracle) (s : MarketState) : MarketState :=
  let s₁ := analyzeMarket o s
  let s₂ := assessRisk o s₁
  let s₃ := getFinancialAdvice o s₂
  let s₄ := analyzeRisk o s₃
  let s₅ := createTradingPlan o s₄
  executeTrades o s₅

/-! ## `parse_fraction` / `fix_json_fractions` (`src/agents/trading_agents.py` 14-29)

`re.sub(r'\d+/\d+', replace_fraction, json_str)` is embedded as a left-to-right
scanner: at a digit it takes the maximal digit run (the greedy `\d+`); a run
followed by `/` and another digit run is a match, anything else is copied and
scanning resumes where the regex engine would. `eval` on a match succeeds only
when both digit runs are valid Python integer literals (no leading zero) and
the denominator is nonzero; on any failure `float('a/b')` raises `ValueError`
and `replace_fraction` returns the match unchanged. The `str()` formatting of
a successful float division is abstracted as `fmt : ℚ → String`; every proved
property holds for all `fmt`. -/

/-- `eval` accepts a digit run as an integer literal unless it has a leading
zero before a nonzero part (`eval('007')` is a `SyntaxError`, while `'0'`,
`'00'` and `'12'` are accepted). -/
def validIntLit : List Char → Bool
  | [] => false
  | [_] => true
  | c :: cs => c ≠ '0' || (c :: cs).all (· == '0')

/-- `parse_fraction` on a regex match split at the slash: `.error ()` models
the exception that escapes it (SyntaxError and ZeroDivisionError both fall
through to `float(fraction_str)`, which raises `ValueError` on a slash). -/
def parseFraction (num den : List Char) : Except Unit ℚ :=
  if validIntLit num ∧ validIntLit den ∧ digitsToNat den ≠ 0 then
    .ok ((digitsToNat num : ℚ) / (digitsToNat den : ℚ))
  else .error ()

/-- `replace_fraction`: `str(parse_fraction(match))`, the handler returning
the match unchanged when `parse_fraction` raises. -/
def replaceFraction (fmt : ℚ → String) (num den : List Char) : List Char :=
  match parseFraction num den with
  | .ok q => (fmt q).data
  | .error _ => num ++ '/' :: den

/-- The `re.sub` scan. `fuel` bounds recursion depth and is instantiated with
the string length, which every recursive call respects (each call strictly
shrinks the list). -/
def subFracsF (fmt : ℚ → String) : ℕ → List Char → List Char
  | 0, cs => cs
  | _ + 1, [] => []
  | fuel + 1, c :: cs =>
      if c.isDigit then
        let run := (c :: cs).takeWhile Char.isDigit
        let after := (c :: cs).dropWhile Char.isDigit
        match after with
        | '/' :: r₂ =>
            let den := r₂.takeWhile Char.isDigit
            if den = [] then run ++ '/' :: subFracsF fmt fuel r₂
            else replaceFraction fmt run den ++ subFracsF fmt fuel (r₂.dropWhile Char.isDigit)
        | _ => run ++ subFracsF fmt fuel after
      else c :: subFracsF fmt fuel cs

/-- `fix_json_fractions`. -/
def fixJsonFractions (fmt : ℚ → String) (s : String) : String :=
  ⟨subFracsF fmt s.data.length s.data⟩

/-- The input has a substring matching `\d+/\d+`: equivalently, a digit, a
slash and a digit occur consecutively. -/
def hasFrac : List Char → Bool
  | a :: b :: c :: rest => (a.isDigit && (b = '/') && c.isDigit) || hasFrac (b :: c :: rest)
  | _ => false

/-! ## Concrete fixtures used by witness theorems -/

/-- An oracle whose chains return fixed strings and whose executor returns a
fixed parsed list. -/
def constOracle (ma ra fa rk tp : String) (ex : Option (List JTrade)) : Oracle :=
  ⟨fun _ => ma, fun _ => ra, fun _ => fa, fun _ => rk, fun _ => tp, fun _ => ex⟩

/-- A small workflow state with one priced symbol and all text fields set. -/
def sampleState : MarketState :=
  { current_prices := [("BTCUSDT", 100)]
    portfolio_value := 20
    progress_to_target := 0
    positions := []
    available_balance := 20
    market_analysis := "ma"
    risk_assessment := "ra"
    trading_plan := "tp"
    executed_trades := []
    strategy := "aggressive"
    financial_advice := "fa"
    risk_analysis := "rk" }

/-- A well-formed buy-trade object for `sampleState`. -/
def sampleBuyTrade : JTrade :=
  .dict [("type", .str "buy"), ("symbol", .str "BTCUSDT"), ("amount", .num (1 / 10)),
    ("reason", .str "momentum")]

theorem mem_alistInsert {α : Type} {k : String} {v : α} {l : List (String × α)}
    {x : String × α} (h : x ∈ alistInsert k v l) : x = (k, v) ∨ x ∈ l := by
  induction l with
  | nil =>
      simp only [alistInsert, List.mem_singleton] at h
      exact Or.inl h
  | cons hd tl ih =>
      rcases hd with ⟨k₂, v₂⟩
      by_cases hk : k₂ = k
      · simp only [alistInsert, if_pos hk] at h
        rcases List.mem_cons.mp h with h | h
        · exact Or.inl h
        · exact Or.inr (List.mem_cons_of_mem _ h)
      · simp only [alistInsert, if_neg hk] at h
        rcases List.mem_cons.mp h with h | h
        · exact Or.inr (by simp [h])
        · rcases ih h with h | h
          · exact Or.inl h
          · exact Or.inr (List.mem_cons_of_mem _ h)

theorem mem_alistErase {α : Type} {k : String} {l : List (String × α)}
    {x : String × α} (h : x ∈ alistErase k l) : x ∈ l := by
  induction l with
  | nil => simp [alistErase] at h
  | cons hd tl ih =>
      rcases hd with ⟨k₂, v₂⟩
      by_cases hk : k₂ = k
      · simp only [alistErase, if_pos hk] at h
        exact List.mem_cons_of_mem _ h
      · simp only [alistErase, if_neg hk] at h
        rcases List.mem_cons.mp h with h | h
        · simp [h]
        · exact List.mem_cons_of_mem _ (ih h)

theorem alistLookup_mem {α : Type} {k : String} {l : List (String × α)} {v : α}
    (h : alistLookup k l = some v) : (k, v) ∈ l := by
  induction l with
  | nil => simp [alistLookup] at h
  | cons hd tl ih =>
      rcases hd with ⟨k₂, v₂⟩
      by_cases hk : k₂ = k
      · simp only [alistLookup, if_pos hk] at h
        subst hk
        cases h
        exact List.mem_cons_self _ _
      · simp only [alistLookup, if_neg hk] at h
        exact List.mem_cons_of_mem _ (ih h)

theorem simInv_step {w : SimWallet} {op : SimOp} (hw : simInv w) (hop : op.nonneg) :
    simInv (applySimOp w op) := by
  obtain ⟨hbal, hpos⟩ := hw
  cases op with
  | openPos ts s a p =>
      obtain ⟨ha, hp⟩ := hop
      by_cases hcan : canOpenPosition w s a p
      · refine ⟨?_, ?_⟩
        · have hle : a * p ≤ w.balance := by
            simpa [canOpenPosition] using hcan
          simp only [applySimOp, simOpenPosition, if_pos hcan]
          linarith
        · intro sp hsp
          simp only [applySimOp, simOpenPosition, if_pos hcan] at hsp
          rcases mem_alistInsert hsp with h | h
          · subst h; exact ha
          · exact hpos _ h
      · simpa [applySimOp, simOpenPosition, if_neg hcan] using ⟨hbal, hpos⟩
  | closePos ts s p =>
      have hp : 0 ≤ p := hop
      cases hlk : alistLookup s w.positions with
      | none => simpa [applySimOp, simClosePosition, hlk] using ⟨hbal, hpos⟩
      | some position =>
          refine ⟨?_, ?_⟩
          · have hamt : 0 ≤ position.amount := hpos _ (alistLookup_mem hlk)
            simp only [applySimOp, simClosePosition, hlk]
            have : 0 ≤ position.amount * p := mul_nonneg hamt hp
            linarith
          · intro sp hsp
            simp only [applySimOp, simClosePosition, hlk] at hsp
            exact hpos _ (mem_alistErase hsp)

theorem twInv_step {w : TestWallet} {op : TwOp} (hw : twInv w) (hop : op.nonneg) :
    twInv (applyTwOp w op) := by
  obtain ⟨hbal, hpos⟩ := hw
  cases op with
  | buy ts s a p =>
      obtain ⟨ha, hp⟩ := hop
      simp only [applyTwOp, TestWallet.buy]
      by_cases h₁ : a * p < MIN_PURCHASE_AMOUNT
      · simpa [if_pos h₁] using ⟨hbal, hpos⟩
      · by_cases h₂ : a * p > w.balance
        · simpa [if_neg h₁, if_pos h₂] using ⟨hbal, hpos⟩
        · have hbal' : 0 ≤ w.balance - a * p := by
            push_neg at h₂
            linarith
          cases hlk : alistLookup s w.positions with
          | some current_position =>
              by_cases hz : current_position.amount + a = 0
              · simpa [if_neg h₁, if_neg h₂, hlk, if_pos hz] using ⟨hbal', hpos⟩
              · refine ⟨by simpa [if_neg h₁, if_neg h₂, hlk, if_neg hz] using hbal', ?_⟩
                intro sp hsp
                simp only [if_neg h₁, if_neg h₂, hlk, if_neg hz] at hsp
                rcases mem_alistInsert hsp with h | h
                · subst h
                  have : 0 ≤ current_position.amount := hpos _ (alistLookup_mem hlk)
                  simpa using add_nonneg this ha
                · exact hpos _ h
          | none =>
              refine ⟨by simpa [if_neg h₁, if_neg h₂, hlk] using hbal', ?_⟩
              intro sp hsp
              simp only [if_neg h₁, if_neg h₂, hlk] at hsp
              rcases mem_alistInsert hsp with h | h
              · subst h; simpa using ha
              · exact hpos _ h
  | sell ts s a p =>
      obtain ⟨ha, hp⟩ := hop
      simp only [applyTwOp, TestWallet.sell]
      cases hlk : alistLookup s w.positions with
      | none => simpa using ⟨hbal, hpos⟩
      | some position =>
          by_cases hgt : a > position.amount
          · simpa [if_pos hgt] using ⟨hbal, hpos⟩
          · refine ⟨?_, ?_⟩
            · have : 0 ≤ a * p := mul_nonneg ha hp
              simp only [if_neg hgt]
              linarith
            · intro sp hsp
              simp only [if_neg hgt] at hsp
              by_cases hz : position.amount - a = 0
              · rw [if_pos hz] at hsp
                exact hpos _ (mem_alistErase hsp)
              · rw [if_neg hz] at hsp
                rcases mem_alistInsert hsp with h | h
                · subst h
                  push_neg at hgt
                  simpa using sub_nonneg.mpr hgt
                · exact hpos _ h

theorem simInv_foldl {w : SimWallet} (ops : List SimOp) (hw : simInv w)
    (hops : ∀ op ∈ ops, op.nonneg) : simInv (ops.foldl applySimOp w) := by
  induction ops generalizing w with
  | nil => simpa using hw
  | cons op rest ih =>
      simp only [List.foldl_cons]
      exact ih (simInv_step hw (hops op (List.mem_cons_self _ _)))
        (fun o ho => hops o (List.mem_cons_of_mem _ ho))

theorem twInv_foldl {w : TestWallet} (ops : List TwOp) (hw : twInv w)
    (hops : ∀ op ∈ ops, op.nonneg) : twInv (ops.foldl applyTwOp w) := by
  induction ops generalizing w with
  | nil => simpa using hw
  | cons op rest ih =>
      simp only [List.foldl_cons]
      exact ih (twInv_step hw (hops op (List.mem_cons_self _ _)))
        (fun o ho => hops o (List.mem_cons_of_mem _ ho))

instance (op : SimOp) : Decidable op.nonneg := by
  cases op <;> (unfold SimOp.nonneg; infer_instance)

instance (op : TwOp) : Decidable op.nonneg := by
  cases op <;> (unfold TwOp.nonneg; infer_instance)

/-- C8: `SimulatedWallet.get_progress_to_target` returns a value in the closed
interval [0, 100] for every wallet (balance and positions) and price map: the
raw percentage is clamped at both ends by `min(max(progress, 0), 100)`. -/
theorem get_progress_to_target_in_range (w : SimWallet)
    (current_prices : List (String × ℚ)) :
    0 ≤ simGetProgressToTarget w current_prices
      ∧ simGetProgressToTarget w current_prices ≤ 100 := by
  unfold simGetProgressToTarget
  exact ⟨le_min (le_max_right _ 0) (by norm_num), min_le_right _ _⟩

/-- C1 (amended): every wallet reachable from the initial state by a sequence
of trade operations whose `amount` and `price` arguments are nonnegative has
nonnegative recorded position amounts and a nonnegative cash balance; since
every prefix of such a sequence is such a sequence, the invariant holds after
each operation. -/
theorem wallet_trade_sequences_keep_nonneg
    (simOps : List SimOp) (twOps : List TwOp) (ib tb : ℚ)
    (hsim : ∀ op ∈ simOps, op.nonneg) (htw : ∀ op ∈ twOps, op.nonneg)
    (hib : 0 ≤ ib) :
    simInv (simOps.foldl applySimOp initSimWallet)
      ∧ twInv (twOps.foldl applyTwOp (TestWallet.init ib tb)) := by
  refine ⟨simInv_foldl simOps ⟨?_, ?_⟩ hsim, twInv_foldl twOps ⟨?_, ?_⟩ htw⟩
  · norm_num [initSimWallet, INITIAL_BALANCE]
  · simp [initSimWallet]
  · exact hib
  · simp [TestWallet.init]

/-- C1 counterexample: the claim as stated quantifies over all operation
sequences, but `open_position` with the negative amount -1 passes
`can_open_position` (cost -1 <= balance) and records a position with amount
-1 < 0, so the invariant fails after one operation. -/
theorem wallet_invariant_counterexample :
    ¬ simInv ([SimOp.openPos 0 "BTCUSDT" (-1) 1].foldl applySimOp initSimWallet) := by
  intro h
  obtain ⟨-, hpos⟩ := h
  have hcan : canOpenPosition initSimWallet "BTCUSDT" (-1) 1 := by
    norm_num [canOpenPosition, initSimWallet, INITIAL_BALANCE]
  have hmem : ("BTCUSDT", (⟨-1, 1⟩ : WPosition))
      ∈ (List.foldl applySimOp initSimWallet [SimOp.openPos 0 "BTCUSDT" (-1) 1]).positions := by
    simp only [List.foldl, applySimOp, simOpenPosition]
    rw [if_pos hcan]
    simp [initSimWallet, alistInsert]
  have := hpos _ hmem
  norm_num at this

/-- C1 witness: a concrete nonnegative operation sequence on each wallet. -/
theorem wallet_trade_sequences_keep_nonneg_witness :
    simInv ([SimOp.openPos 0 "BTCUSDT" 2 5, SimOp.closePos 1 "BTCUSDT" 6].foldl
        applySimOp initSimWallet)
      ∧ twInv ([TwOp.buy 0 "DOGEUSDT" 10 1, TwOp.sell 1 "DOGEUSDT" 4 2].foldl
        applyTwOp (TestWallet.init 20 100)) :=
  wallet_trade_sequences_keep_nonneg _ _ 20 100 (by decide) (by decide) (by norm_num)

/-- C6: a successful `TestWallet.sell` (symbol held, amount within the held
amount) returns True, appends exactly one `Trade` with the given timestamp,
symbol, side `'sell'`, amount, price and `profit_loss = amount * (price -
entry_price)`, and credits the balance by `amount * price`; and
`SimulatedWallet.close_position` on a held symbol appends a `'CLOSE'` record
with `profit = amount * price - amount * entry_price`. -/
theorem sell_records_realized_pnl
    (w : TestWallet) (sw : SimWallet) (ts ts₂ : ℕ) (sym sym₂ : String)
    (a p p₂ : ℚ) (pos pos₂ : WPosition)
    (hpos : alistLookup sym w.positions = some pos) (ha : a ≤ pos.amount)
    (hpos₂ : alistLookup sym₂ sw.positions = some pos₂) :
    (w.sell ts sym a p).1 = true
    ∧ (w.sell ts sym a p).2.trade_history
        = w.trade_history ++ [⟨ts, sym, "sell", a, p, a * p, some (a * (p - pos.entry_price))⟩]
    ∧ (w.sell ts sym a p).2.balance = w.balance + a * p
    ∧ (simClosePosition sw ts₂ sym₂ p₂).2.trade_history
        = sw.trade_history ++ [⟨ts₂, "CLOSE", sym₂, pos₂.amount, p₂, none,
            some (pos₂.amount * p₂), some (pos₂.amount * p₂ - pos₂.amount * pos₂.entry_price)⟩] := by
  have hngt : ¬ a > pos.amount := not_lt.mpr ha
  have hpl : a * p - a * pos.entry_price = a * (p - pos.entry_price) := by ring
  refine ⟨?_, ?_, ?_, ?_⟩
  · simp [TestWallet.sell, hpos, hngt]
  · simp [TestWallet.sell, hpos, hngt, hpl]
  · simp [TestWallet.sell, hpos, hngt]
  · simp [simClosePosition, hpos₂]

/-- C6 witness: concrete wallets with held positions. -/
theorem sell_records_realized_pnl_witness :
    ((⟨20, 100, 10, [("BTCUSDT", ⟨2, 3⟩)], []⟩ : TestWallet).sell 5 "BTCUSDT" 1 4).1 = true
    ∧ ((⟨20, 100, 10, [("BTCUSDT", ⟨2, 3⟩)], []⟩ : TestWallet).sell 5 "BTCUSDT" 1 4).2.trade_history
        = [] ++ [⟨5, "BTCUSDT", "sell", 1, 4, 1 * 4, some (1 * (4 - (3 : ℚ)))⟩]
    ∧ ((⟨20, 100, 10, [("BTCUSDT", ⟨2, 3⟩)], []⟩ : TestWallet).sell 5 "BTCUSDT" 1 4).2.balance
        = 10 + 1 * 4
    ∧ (simClosePosition ⟨20, [("ETHUSDT", ⟨3, 2⟩)], [], 100⟩ 7 "ETHUSDT" 6).2.trade_history
        = [] ++ [⟨7, "CLOSE", "ETHUSDT", (3 : ℚ), 6, none, some ((3 : ℚ) * 6),
            some ((3 : ℚ) * 6 - 3 * 2)⟩] :=
  sell_records_realized_pnl ⟨20, 100, 10, [("BTCUSDT", ⟨2, 3⟩)], []⟩
    ⟨20, [("ETHUSDT", ⟨3, 2⟩)], [], 100⟩ 5 7 "BTCUSDT" "ETHUSDT" 1 4 6 ⟨2, 3⟩ ⟨3, 2⟩
    (by decide) (by norm_num) (by decide)

/-- C9 counterexample: the claim says `buy` returns True whenever
`amount * price` is neither below `MIN_PURCHASE_AMOUNT` nor above the
balance, but with an existing position of amount -1 a buy of amount 1 passes
both checks and then raises `ZeroDivisionError` in the entry-price update
(the merged amount is 0), returning nothing — with the balance already
debited. -/
theorem buy_zero_division_counterexample :
    (TestWallet.buy ⟨20, 100, 20, [("BTCUSDT", ⟨-1, 1⟩)], []⟩ 0 "BTCUSDT" 1 10).1
        = .error ()
    ∧ ¬ ((1 : ℚ) * 10 < MIN_PURCHASE_AMOUNT ∨ (1 : ℚ) * 10 > (20 : ℚ)) := by
  constructor
  · simp only [TestWallet.buy, alistLookup]
    norm_num [MIN_PURCHASE_AMOUNT]
  · norm_num [MIN_PURCHASE_AMOUNT]

/-- C9 (amended): with a nonnegative amount argument and nonnegative held
position amounts (the data model's domain; otherwise the entry-price update
can divide by zero), `TestWallet.buy` returns False and leaves the wallet
completely unchanged when `amount * price < MIN_PURCHASE_AMOUNT` or
`amount * price > balance`, and otherwise returns True and debits the
balance by `amount * price`. -/
theorem buy_checks_and_debit
    (w : TestWallet) (ts : ℕ) (sym : String) (a p : ℚ)
    (ha : 0 ≤ a) (hpos : ∀ sp ∈ w.positions, 0 ≤ sp.2.amount) :
    ((a * p < MIN_PURCHASE_AMOUNT ∨ a * p > w.balance) →
        w.buy ts sym a p = (.ok false, w))
    ∧ (¬ (a * p < MIN_PURCHASE_AMOUNT ∨ a * p > w.balance) →
        (w.buy ts sym a p).1 = .ok true
          ∧ (w.buy ts sym a p).2.balance = w.balance - a * p) := by
  constructor
  · intro h
    simp only [TestWallet.buy]
    split_ifs with h₁ h₂
    · rfl
    · rfl
    · rcases h with h | h
      · exact absurd h h₁
      · exact absurd h h₂
  · intro h
    push_neg at h
    obtain ⟨h₁, h₂⟩ := h
    have h₁' : ¬ a * p < MIN_PURCHASE_AMOUNT := not_lt.mpr h₁
    have h₂' : ¬ a * p > w.balance := not_lt.mpr h₂
    simp only [TestWallet.buy, if_neg h₁', if_neg h₂']
    cases hlk : alistLookup sym w.positions with
    | none => exact ⟨rfl, rfl⟩
    | some cur =>
        have hcur : 0 ≤ cur.amount := hpos _ (alistLookup_mem hlk)
        have hapos : 0 < a := by
          rcases lt_or_eq_of_le ha with h | h
          · exact h
          · exfalso
            rw [← h, zero_mul] at h₁
            norm_num [MIN_PURCHASE_AMOUNT] at h₁
        have hz : ¬ cur.amount + a = 0 := by positivity
        dsimp only
        rw [if_neg hz]
        exact ⟨rfl, rfl⟩

/-- C9 witness: a rejected and an accepted concrete buy. -/
theorem buy_checks_and_debit_witness :
    TestWallet.buy (TestWallet.init 20 100) 0 "BTCUSDT" 1 2
        = (.ok false, TestWallet.init 20 100)
    ∧ (TestWallet.buy (TestWallet.init 20 100) 0 "BTCUSDT" 1 10).1 = .ok true
    ∧ (TestWallet.buy (TestWallet.init 20 100) 0 "BTCUSDT" 1 10).2.balance
        = (TestWallet.init 20 100).balance - 1 * 10 := by
  refine ⟨?_, ?_, ?_⟩
  · exact (buy_checks_and_debit (TestWallet.init 20 100) 0 "BTCUSDT" 1 2
      (by norm_num) (by simp [TestWallet.init])).1
      (Or.inl (by norm_num [MIN_PURCHASE_AMOUNT]))
  · exact ((buy_checks_and_debit (TestWallet.init 20 100) 0 "BTCUSDT" 1 10
      (by norm_num) (by simp [TestWallet.init])).2
      (by norm_num [MIN_PURCHASE_AMOUNT, TestWallet.init])).1
  · exact ((buy_checks_and_debit (TestWallet.init 20 100) 0 "BTCUSDT" 1 10
      (by norm_num) (by simp [TestWallet.init])).2
      (by norm_num [MIN_PURCHASE_AMOUNT, TestWallet.init])).2

/-- C4: `run_trading_workflow` equals the sequential composition
market analyst, risk manager, financial advisor, risk analyzer, trader
(trading plan), executor (trade execution) applied to the input state. -/
theorem run_trading_workflow_order (o : Oracle) (s : MarketState) :
    runTradingWorkflow o s =
      executeTrades o (createTradingPlan o (analyzeRisk o (getFinancialAdvice o
        (assessRisk o (analyzeMarket o s))))) := rfl

theorem attemptEvents_eq (rc : ℕ) :
    (if 0 < rc then [ApiEvent.sleep (2 ^ rc)] else []) ++ [ApiEvent.call]
      = attemptEvents rc := by
  unfold attemptEvents
  by_cases h : rc = 0
  · simp [h]
  · simp [h, Nat.pos_of_ne_zero h]

theorem rliAux_succ (attempt : ℕ → Except String String) (chain : String) (rc m : ℕ) :
    rliAux attempt chain rc (m + 1) =
      match attempt rc with
      | .ok result =>
          (some result, (if 0 < rc then [ApiEvent.sleep (2 ^ rc)] else []) ++ [.call])
      | .error _ =>
          if m = 0 then
            (some (fallbackResponse chain),
              (if 0 < rc then [ApiEvent.sleep (2 ^ rc)] else []) ++ [.call])
          else
            ((rliAux attempt chain (rc + 1) m).1,
              (if 0 < rc then [ApiEvent.sleep (2 ^ rc)] else []) ++ [.call]
                ++ (rliAux attempt chain (rc + 1) m).2) := rfl

theorem rliAux_trace (attempt : ℕ → Except String String) (chain : String) :
    ∀ remaining rc, ∃ n, n ≤ remaining
      ∧ (rliAux attempt chain rc remaining).2 = attemptTrace rc n := by
  intro remaining
  induction remaining with
  | zero => exact fun rc => ⟨0, le_refl 0, rfl⟩
  | succ m ih =>
      intro rc
      rw [rliAux_succ]
      cases hat : attempt rc with
      | ok r =>
          refine ⟨1, by omega, ?_⟩
          simp [attemptTrace, ← attemptEvents_eq]
      | error e =>
          by_cases hm : m = 0
          · subst hm
            refine ⟨1, by omega, ?_⟩
            simp [attemptTrace, ← attemptEvents_eq]
          · obtain ⟨n, hn, htr⟩ := ih (rc + 1)
            refine ⟨n + 1, by omega, ?_⟩
            simp [if_neg hm, attemptTrace, ← attemptEvents_eq, htr, List.append_assoc]

theorem rliAux_fallback (attempt : ℕ → Except String String) (chain : String) :
    ∀ remaining rc, 0 < remaining →
      (∀ k, rc ≤ k → k < rc + remaining → ∃ e, attempt k = .error e) →
      (rliAux attempt chain rc remaining).1 = some (fallbackResponse chain) := by
  intro remaining
  induction remaining with
  | zero => intro rc h; omega
  | succ m ih =>
      intro rc _ hfail
      obtain ⟨e, he⟩ := hfail rc (le_refl rc) (by omega)
      rw [rliAux_succ, he]
      by_cases hm : m = 0
      · simp [hm]
      · simp only [if_neg hm]
        exact ih (rc + 1) (Nat.pos_of_ne_zero hm)
          (fun k hk₁ hk₂ => hfail k (by omega) (by omega))

theorem rliAux_isSome (attempt : ℕ → Except String String) (chain : String) :
    ∀ remaining rc, 0 < remaining → ∃ s, (rliAux attempt chain rc remaining).1 = some s := by
  intro remaining
  induction remaining with
  | zero => intro rc h; omega
  | succ m ih =>
      intro rc _
      rw [rliAux_succ]
      cases hat : attempt rc with
      | ok r => exact ⟨r, rfl⟩
      | error e =>
          by_cases hm : m = 0
          · exact ⟨fallbackResponse chain, by simp [hm]⟩
          · obtain ⟨s, hs⟩ := ih (rc + 1) (Nat.pos_of_ne_zero hm)
            exact ⟨s, by simp only [if_neg hm]; exact hs⟩

theorem callCount_attemptEvents (k : ℕ) : callCount (attemptEvents k) = 1 := by
  unfold attemptEvents callCount
  split <;> simp

theorem callCount_attemptTrace : ∀ (n lo : ℕ), callCount (attemptTrace lo n) = n := by
  intro n
  induction n with
  | zero => intro lo; rfl
  | succ m ih =>
      intro lo
      unfold attemptTrace
      rw [callCount, List.countP_append]
      have h₁ := callCount_attemptEvents lo
      have h₂ := ih (lo + 1)
      unfold callCount at h₁ h₂
      omega

/-- C5: `_rate_limited_invoke` makes at most `max_retries` attempts; its event
trace is exactly `n` attempts for some `n ≤ max_retries`, with a sleep of
`2^k` seconds immediately before retry attempt `k` (`k ≥ 1`) and no other
sleeps; whenever `max_retries ≥ 1` (the default is 3) it returns a string
rather than re-raising; and when every attempt fails it returns the fallback
string selected from `str(chain)`. -/
theorem rate_limited_invoke_spec (attempt : ℕ → Except String String)
    (max_retries : ℕ) (chain : String) :
    (∃ n, n ≤ max_retries
      ∧ (rateLimitedInvoke attempt max_retries chain).2 = attemptTrace 0 n
      ∧ callCount (rateLimitedInvoke attempt max_retries chain).2 = n)
    ∧ (0 < max_retries → ∃ s, (rateLimitedInvoke attempt max_retries chain).1 = some s)
    ∧ (0 < max_retries → (∀ k, k < max_retries → ∃ e, attempt k = Except.error e) →
        (rateLimitedInvoke attempt max_retries chain).1 = some (fallbackResponse chain)) := by
  refine ⟨?_, ?_, ?_⟩
  · obtain ⟨n, hn, htr⟩ := rliAux_trace attempt chain max_retries 0
    exact ⟨n, hn, htr, by rw [rateLimitedInvoke, htr, callCount_attemptTrace]⟩
  · exact fun h => rliAux_isSome attempt chain max_retries 0 h
  · intro h hfail
    exact rliAux_fallback attempt chain max_retries 0 h
      (fun k _ hk => hfail k (by omega))

/-- C5 witness: three failing attempts with the default `max_retries = 3`
return the fallback string. -/
theorem rate_limited_invoke_spec_witness :
    (rateLimitedInvoke (fun _ => Except.error "429") 3 "the financial_advice chain").1
      = some (fallbackResponse "the financial_advice chain") :=
  (rate_limited_invoke_spec (fun _ => Except.error "429") 3
    "the financial_advice chain").2.2 (by norm_num) (fun k _ => ⟨"429", rfl⟩)

/-- C7: two consecutive successful LLM invocations through
`_rate_limited_invoke` are two outbound calls with no sleep between them:
`min_request_interval` and `last_request_time` are assigned in `__init__` but
never read, so the only sleeps are the exponential-backoff ones before
retries (and `time.sleep(TRADING_INTERVAL)` between whole trading cycles in
`main`), not a pacing of every pair of consecutive API calls. -/
theorem consecutive_llm_calls_have_no_sleep :
    (rateLimitedInvoke (fun _ => Except.ok "analysis") 3 "market_analyst").2
      ++ (rateLimitedInvoke (fun _ => Except.ok "assessment") 3 "risk_manager").2
      = [ApiEvent.call, ApiEvent.call] := rfl

theorem updatePositions_sum (prices : List (String × ℚ)) :
    ∀ l, (updatePositions prices l).1 = positionsValue prices (updatePositions prices l).2 := by
  intro l
  induction l with
  | nil => rfl
  | cons hd rest ih =>
      rcases hd with ⟨sym, pos⟩
      simp only [updatePositions]
      cases hlk : alistLookup sym prices with
      | none => simp [positionsValue, hlk, ih]
      | some p => simp [positionsValue, hlk, ih]

/-- C3: whenever `execute_trades` runs its normal path (required text fields
present, executor response parsed into a trade list — whatever its content,
including partial or malformed trades), the returned state's
`portfolio_value` equals `available_balance` plus, for each recorded
position whose symbol is in `current_prices`, the position's amount times
that symbol's current price. -/
theorem execute_trades_portfolio_value_consistent
    (o : Oracle) (s : MarketState) (trades : List JTrade)
    (hf : fieldsPresent s = true)
    (hp : o.executor ⟨s.trading_plan, s.current_prices, s.positions, s.available_balance⟩
        = some trades) :
    (executeTrades o s).portfolio_value
      = (executeTrades o s).available_balance
        + positionsValue (executeTrades o s).current_prices (executeTrades o s).positions := by
  simp only [executeTrades, hf, if_true, hp, executeTradesCore]
  exact congrArg (_ + ·) (updatePositions_sum _ _)

/-- C3 witness: a concrete state and executor output exercising the normal
path. -/
theorem execute_trades_portfolio_value_consistent_witness :
    (executeTrades (constOracle "ma" "ra" "fa" "rk" "tp" (some [sampleBuyTrade])) sampleState).portfolio_value
      = (executeTrades (constOracle "ma" "ra" "fa" "rk" "tp" (some [sampleBuyTrade])) sampleState).available_balance
        + positionsValue
            (executeTrades (constOracle "ma" "ra" "fa" "rk" "tp" (some [sampleBuyTrade])) sampleState).current_prices
            (executeTrades (constOracle "ma" "ra" "fa" "rk" "tp" (some [sampleBuyTrade])) sampleState).positions :=
  execute_trades_portfolio_value_consistent _ _ [sampleBuyTrade] (by decide) rfl

theorem subFracsF_nil (fmt : ℚ → String) : ∀ fuel, subFracsF fmt fuel [] = [] := by
  intro fuel
  cases fuel <;> rfl

theorem hasFrac_tail {c : Char} {cs : List Char} (h : hasFrac (c :: cs) = false) :
    hasFrac cs = false := by
  cases cs with
  | nil => rfl
  | cons b bs =>
      cases bs with
      | nil => rfl
      | cons d ds =>
          simp only [hasFrac, Bool.or_eq_false_iff] at h
          exact h.2

theorem hasFrac_suffix (l₁ : List Char) {l₂ : List Char}
    (h : hasFrac (l₁ ++ l₂) = false) : hasFrac l₂ = false := by
  induction l₁ with
  | nil => exact h
  | cons c cs ih => exact ih (hasFrac_tail h)

theorem hasFrac_cons_true (a : Char) {l : List Char} (h : hasFrac l = true) :
    hasFrac (a :: l) = true := by
  cases l with
  | nil => exact Bool.noConfusion h
  | cons b bs =>
      cases bs with
      | nil => exact Bool.noConfusion h
      | cons d ds => simp [hasFrac, h]

theorem hasFrac_of_mid (pre : List Char) (x y : Char) (post : List Char)
    (hx : x.isDigit = true) (hy : y.isDigit = true) :
    hasFrac (pre ++ x :: '/' :: y :: post) = true := by
  induction pre with
  | nil => simp [hasFrac, hx, hy]
  | cons a ps ih =>
      rw [List.cons_append]
      exact hasFrac_cons_true a ih

theorem digit_split (num rest : List Char) (hnum : ∀ c ∈ num, c.isDigit = true) :
    (num ++ '/' :: rest).takeWhile Char.isDigit = num
    ∧ (num ++ '/' :: rest).dropWhile Char.isDigit = '/' :: rest := by
  induction num with
  | nil =>
      have h : Char.isDigit '/' = false := by decide
      constructor
      · simp [List.takeWhile_cons, h]
      · simp [List.dropWhile_cons, h]
  | cons c cs ih =>
      have hc : c.isDigit = true := hnum c (List.mem_cons_self c cs)
      have ihh := ih (fun a ha => hnum a (List.mem_cons_of_mem c ha))
      constructor
      · simp [List.takeWhile_cons, hc, ihh.1]
      · simp [List.dropWhile_cons, hc, ihh.2]

theorem allP_takeWhile_eq {p : Char → Bool} (l : List Char) (h : ∀ c ∈ l, p c = true) :
    l.takeWhile p = l ∧ l.dropWhile p = [] := by
  induction l with
  | nil => exact ⟨rfl, rfl⟩
  | cons c cs ih =>
      have hc : p c = true := h c (List.mem_cons_self c cs)
      have ihh := ih (fun a ha => h a (List.mem_cons_of_mem c ha))
      constructor
      · simp [List.takeWhile_cons, hc, ihh.1]
      · simp [List.dropWhile_cons, hc, ihh.2]

theorem subFracsF_no_match (fmt : ℚ → String) :
    ∀ fuel cs, cs.length ≤ fuel → hasFrac cs = false → subFracsF fmt fuel cs = cs := by
  intro fuel
  induction fuel with
  | zero => intro cs _ _; rfl
  | succ fuel ih =>
      intro cs hlen hfr
      cases cs with
      | nil => rfl
      | cons c cs =>
          simp only [List.length_cons] at hlen
          by_cases hd : c.isDigit = true
          · simp only [subFracsF, if_pos hd]
            have hsplit := List.takeWhile_append_dropWhile Char.isDigit (c :: cs)
            have hrun : (c :: cs).takeWhile Char.isDigit = c :: cs.takeWhile Char.isDigit := by
              simp [List.takeWhile_cons, hd]
            have hrunpos : 0 < ((c :: cs).takeWhile Char.isDigit).length := by
              rw [hrun]; simp
            have hlens : ((c :: cs).takeWhile Char.isDigit).length
                + ((c :: cs).dropWhile Char.isDigit).length = cs.length + 1 := by
              rw [← List.length_append, hsplit, List.length_cons]
            split
            · -- the dropWhile result starts with a slash
              rename_i r₂ heq
              have hfr' : hasFrac ((c :: cs).takeWhile Char.isDigit ++ '/' :: r₂) = false := by
                rw [← heq, hsplit]
                exact hfr
              by_cases hden : r₂.takeWhile Char.isDigit = []
              · rw [if_pos hden]
                have hfr₂ : hasFrac r₂ = false := by
                  apply hasFrac_suffix ((c :: cs).takeWhile Char.isDigit ++ ['/'])
                  rw [List.append_assoc, List.singleton_append]
                  exact hfr'
                have hlr : r₂.length ≤ fuel := by
                  rw [heq] at hlens
                  simp only [List.length_cons] at hlens
                  omega
                rw [ih r₂ hlr hfr₂]
                rw [← heq]
                exact hsplit
              · exfalso
                cases hden₂ : r₂.takeWhile Char.isDigit with
                | nil => exact hden hden₂
                | cons d ds =>
                    have hd_dig : d.isDigit = true :=
                      List.mem_takeWhile_imp (by rw [hden₂]; exact List.mem_cons_self d ds)
                    have hne : (c :: cs).takeWhile Char.isDigit ≠ [] := by
                      rw [hrun]; simp
                    have hlast : (((c :: cs).takeWhile Char.isDigit).getLast hne).isDigit = true :=
                      List.mem_takeWhile_imp (List.getLast_mem hne)
                    have hrsplit := List.takeWhile_append_dropWhile Char.isDigit r₂
                    rw [hden₂] at hrsplit
                    have hform : c :: cs
                        = ((c :: cs).takeWhile Char.isDigit).dropLast
                          ++ (((c :: cs).takeWhile Char.isDigit).getLast hne)
                            :: '/' :: d :: (ds ++ r₂.dropWhile Char.isDigit) := by
                      conv_lhs => rw [← hsplit, heq, ← hrsplit]
                      conv_lhs => rw [← List.dropLast_append_getLast hne]
                      simp [List.append_assoc]
                    have htrue := hasFrac_of_mid ((c :: cs).takeWhile Char.isDigit).dropLast
                      _ _ (ds ++ r₂.dropWhile Char.isDigit) hlast hd_dig
                    rw [← hform, hfr] at htrue
                    exact Bool.noConfusion htrue
            · -- the dropWhile result does not start with a slash
              have hfr₂ : hasFrac ((c :: cs).dropWhile Char.isDigit) = false := by
                apply hasFrac_suffix ((c :: cs).takeWhile Char.isDigit)
                rw [hsplit]
                exact hfr
              have hlr : ((c :: cs).dropWhile Char.isDigit).length ≤ fuel := by omega
              rw [ih _ hlr hfr₂]
              exact hsplit
          · simp only [subFracsF, if_neg hd]
            have : cs.length ≤ fuel := by omega
            rw [ih cs this (hasFrac_tail hfr)]

theorem parseFraction_zero_den (num den : List Char) (h : digitsToNat den = 0) :
    parseFraction num den = .error () := by
  unfold parseFraction
  rw [if_neg (fun hc => hc.2.2 h)]

theorem replaceFraction_zero_den (fmt : ℚ → String) (num den : List Char)
    (h : digitsToNat den = 0) : replaceFraction fmt num den = num ++ '/' :: den := by
  unfold replaceFraction
  rw [parseFraction_zero_den num den h]

/-- C10: `fix_json_fractions` is total on strings (the embedding returns a
string for every input; all exceptions of `parse_fraction` are caught inside
`replace_fraction`), an input with no substring matching `\d+/\d+` is
returned exactly unchanged, and an input that is exactly a fraction with a
zero denominator (e.g. `'1/0'`) is returned unchanged through the exception
handlers. -/
theorem fix_json_fractions_spec (fmt : ℚ → String) :
    (∀ s : String, hasFrac s.data = false → fixJsonFractions fmt s = s)
    ∧ (∀ num den : List Char, num ≠ [] → den ≠ [] →
        (∀ c ∈ num, c.isDigit = true) → (∀ c ∈ den, c.isDigit = true) →
        digitsToNat den = 0 →
        fixJsonFractions fmt ⟨num ++ '/' :: den⟩ = ⟨num ++ '/' :: den⟩) := by
  constructor
  · intro s h
    show String.mk (subFracsF fmt s.data.length s.data) = s
    rw [subFracsF_no_match fmt s.data.length s.data (le_refl _) h]
  · intro num den hnum hden hdn hdd h0
    show String.mk (subFracsF fmt (num ++ '/' :: den).length (num ++ '/' :: den))
        = String.mk (num ++ '/' :: den)
    cases num with
    | nil => exact absurd rfl hnum
    | cons c num₂ =>
        have hc : c.isDigit = true := hdn c (List.mem_cons_self c num₂)
        have hsp := digit_split (c :: num₂) den hdn
        have hdsp := allP_takeWhile_eq den hdd
        have hlen : ((c :: num₂) ++ '/' :: den).length
            = (num₂ ++ '/' :: den).length + 1 := by simp
        rw [hlen]
        have hcons : (c :: num₂) ++ '/' :: den = c :: (num₂ ++ '/' :: den) :=
          List.cons_append c num₂ ('/' :: den)
        rw [hcons]
        simp only [subFracsF, if_pos hc]
        rw [← hcons]
        split
        · rename_i r₂ heq
          rw [hsp.2] at heq
          injection heq with h₁ h₂
          subst h₂
          rw [if_neg (by rw [hdsp.1]; exact hden)]
          rw [hsp.1, hdsp.1, hdsp.2, subFracsF_nil, List.append_nil,
            replaceFraction_zero_den fmt (c :: num₂) den h0]
        · rename_i hnomatch
          exact absurd (hsp.2) (hnomatch den)

/-- C10 witness: a fraction-free string and the zero-denominator fraction
`1/0`, both returned unchanged. -/
theorem fix_json_fractions_spec_witness :
    fixJsonFractions (fun _ => "0.5") "no fractions here" = "no fractions here"
    ∧ fixJsonFractions (fun _ => "0.5") ⟨['1', '/', '0']⟩ = ⟨['1', '/', '0']⟩ :=
  ⟨(fix_json_fractions_spec (fun _ => "0.5")).1 "no fractions here" (by decide),
   (fix_json_fractions_spec (fun _ => "0.5")).2 ['1'] ['0'] (by decide) (by decide)
     (by decide) (by decide) (by decide)⟩

end MemeTrader
